import Mathlib

/-!
# Verification of the `time-tracker` resource store

Shallow embedding of the file-backed resource store of the time-tracker
application (the module exporting `find` / `save` / `delete`, together with its
private helpers `loadGraph`, `loadDB`, `persistGraph` and `generateUniqueID`).

Modelling decisions, all mirroring the JavaScript source:

* A resource is a record with an optional `type` field, an optional numeric
  `id` field, and further domain-specific fields that the store never inspects
  (collapsed into one opaque `payload` string).
* The graph is a JavaScript object mapping type names to partitions; a
  partition is an object mapping numeric ids to resources.  JavaScript objects
  with integer-like keys enumerate those keys in ascending numeric order
  (`Object.keys`), so a partition is modelled as an association list together
  with `objKeys`, which sorts the keys ascendingly exactly as `Object.keys`
  does for integer-like keys.
* `JSON.stringify` / `JSON.parse` are the platform's mutually inverse pair and
  are black boxes to this repository; the data file is therefore modelled as
  `Option Graph` (`none` = the file is absent, i.e. reading yields `ENOENT`).
  The `Disk` state also counts `fs.writeFile` calls so that "no file write
  occurs" is an observable statement.
* Read errors are injected through an `Option String` holding the error code
  of the `fs.readFile` callback (`none` = the read succeeds when the file
  exists, and yields `ENOENT` when it does not).  Writes always succeed in the
  model; no claim quantifies over write failures.
* The module-level memoisation of `loadGraph` (the closed-over `promise`
  variable) is the `cache` field of `StoreState`: `none` before the first
  call, and afterwards the settled outcome of the single `loadDB` call.
  A rejected load is cached too, exactly as the promise is.
-/

namespace TimeTracker

/-- A resource: `type` and `id` as the store reads them off the JavaScript
object (either may be absent), plus the domain fields the store never touches
(e.g. a task's `name` and `entries`), collapsed into an opaque `payload`. -/
structure Resource where
  type : Option String
  id : Option Nat
  payload : String
deriving DecidableEq, Repr

/-- One type's sub-object of the graph: numeric id keys to resources. -/
abbrev TPartition := List (Nat × Resource)

/-- The graph: type names to partitions (`graph` in the source). -/
abbrev Graph := List (String × TPartition)

/-- `part[i]` — JavaScript property read on a partition object. -/
def lookupPart : TPartition → Nat → Option Resource
  | [], _ => none
  | (j, r) :: rest, i => if j = i then some r else lookupPart rest i

/-- `graph[t]` — JavaScript property read on the graph object. -/
def graphLookup : Graph → String → Option TPartition
  | [], _ => none
  | (u, p) :: rest, t => if u = t then some p else graphLookup rest t

/-- `part[i] = r` — property write: overwrite the existing key in place, or
add the key if absent (position is irrelevant, `objKeys` sorts). -/
def partSet : TPartition → Nat → Resource → TPartition
  | [], i, r => [(i, r)]
  | (j, s) :: rest, i, r => if j = i then (i, r) :: rest else (j, s) :: partSet rest i r

/-- `graph[t] = p` — property write on the graph object. -/
def graphSet : Graph → String → TPartition → Graph
  | [], t, p => [(t, p)]
  | (u, q) :: rest, t, p => if u = t then (t, p) :: rest else (u, q) :: graphSet rest t p

/-- `delete part[i]` — property deletion on a partition object. -/
def partDelete (p : TPartition) (i : Nat) : TPartition :=
  p.filter (fun e => e.1 != i)

/-- Insert a key into an ascending list of keys, keeping it ascending. -/
def insertKey (i : Nat) : List Nat → List Nat
  | [] => [i]
  | j :: rest => if i ≤ j then i :: j :: rest else j :: insertKey i rest

/-- Ascending insertion sort on key lists. -/
def sortKeys : List Nat → List Nat
  | [] => []
  | i :: rest => insertKey i (sortKeys rest)

/-- `Object.keys(part)`: JavaScript enumerates integer-like keys in ascending
numeric order, regardless of insertion order. -/
def objKeys (p : TPartition) : List Nat :=
  sortKeys (p.map (fun e => e.1))

/-- `Object.keys(graph[type]).map(id => graph[type][id])` — the array built by
`find` when no id is supplied. -/
def objValues (p : TPartition) : List Resource :=
  (objKeys p).filterMap (fun i => lookupPart p i)

/-- `Math.max(0, ...Object.keys(part))`. -/
def maxKey (p : TPartition) : Nat :=
  (objKeys p).foldl Nat.max 0

/-- `generateUniqueID(type)` (source lines 292-305).  Its `await loadGraph()`
resolves to the one shared in-memory graph object, which `save` has already
mutated by the time it calls this function; the model therefore takes that
graph as an argument. -/
def generateUniqueID (graph : Graph) (type : String) : Nat :=
  match graphLookup graph type with
  | none => 0
  | some p => maxKey p + 1

/-- Errors thrown by the store. -/
inductive StoreError where
  /-- `new Error('unrecognized type')` thrown by `find`. -/
  | unrecognizedType
  /-- `new Error('resources must have a type')` thrown by `save`/`delete`. -/
  | missingType
  /-- An `fs` error propagated unchanged, carrying its `code`. -/
  | io (code : String)
deriving DecidableEq, Repr

/-- The data file (`db.json`) plus a counter of `fs.writeFile` calls.
`file = some g` means the file holds `JSON.stringify` of `g`; `none` means the
file is absent and reading it yields `ENOENT`. -/
structure Disk where
  file : Option Graph
  writes : Nat
deriving DecidableEq, Repr

/-- `persistGraph(payload)` (source lines 273-285): overwrite the whole file
with the serialised payload and resolve with the payload. -/
def persistGraph (payload : Graph) (d : Disk) : Graph × Disk :=
  (payload, { file := some payload, writes := d.writes + 1 })

/-- `loadDB()` (source lines 249-263).  `readErr` is the error of the
`fs.readFile` callback when one is injected: a code other than `ENOENT`
rejects the promise unchanged; `ENOENT` (injected, or implied by the file
being absent) makes the store create the file with an empty graph and resolve
with that empty graph; otherwise the parsed file content is returned. -/
def loadDB (readErr : Option String) (d : Disk) : Except StoreError (Graph × Disk) :=
  match readErr with
  | some code =>
      if code ≠ "ENOENT" then .error (.io code)
      else .ok (persistGraph [] d)
  | none =>
      match d.file with
      | none => .ok (persistGraph [] d)
      | some g => .ok (g, d)

deriving instance DecidableEq for Except

/-- The module-level state: the closed-over `promise` variable of `loadGraph`
(source lines 90-105).  `none` before the first call; afterwards the settled
outcome of the single `loadDB` call (a rejection is cached too). -/
structure StoreState where
  cache : Option (Except StoreError Graph)
deriving DecidableEq, Repr

/-- `loadGraph()` (source lines 90-105): run `loadDB` on the first call and
memoise its outcome; afterwards always return the memoised outcome without
touching the disk. -/
def loadGraph (readErr : Option String) (s : StoreState) (d : Disk) :
    Except StoreError Graph × StoreState × Disk :=
  match s.cache with
  | some out => (out, s, d)
  | none =>
      match loadDB readErr d with
      | .ok (g, d') => (.ok g, ⟨some (.ok g)⟩, d')
      | .error e => (.error e, ⟨some (.error e)⟩, d)

/-- Result of `find`: a single (possibly `undefined`) resource when an id was
supplied, or an array of resources otherwise. -/
inductive FindResult where
  | one (r : Option Resource)
  | many (rs : List Resource)
deriving DecidableEq, Repr

/-- `find(type, id)` (source lines 131-149). -/
def find (readErr : Option String) (s : StoreState) (d : Disk)
    (type : String) (id : Option Nat) :
    Except StoreError FindResult × StoreState × Disk :=
  match loadGraph readErr s d with
  | (.error e, s', d') => (.error e, s', d')
  | (.ok graph, s', d') =>
      match graphLookup graph type with
      | none => (.error .unrecognizedType, s', d')
      | some p =>
          match id with
          | some i => (.ok (.one (lookupPart p i)), s', d')
          | none => (.ok (.many (objValues p)), s', d')

/-- `save(resource)` (source lines 166-201).  Returns the promise outcome, the
(mutated) input resource, and the updated module and disk state.  Mirrors the
source step by step: missing-type check before any load; partition creation
(`graph[resource.type] = {}`) before the id is resolved; fresh id generation
when the resource has no id or its id is not a key of its (just-ensured)
partition; `resource.id = resourceID`; `graph[resource.type][resourceID] =
resource`; whole-graph persist. -/
def save (readErr : Option String) (s : StoreState) (d : Disk) (resource : Resource) :
    Except StoreError Graph × Resource × StoreState × Disk :=
  match resource.type with
  | none => (.error .missingType, resource, s, d)
  | some type =>
      match loadGraph readErr s d with
      | (.error e, s', d') => (.error e, resource, s', d')
      | (.ok graph0, _, d') =>
          let graph1 := match graphLookup graph0 type with
                        | none => graphSet graph0 type []
                        | some _ => graph0
          let part := (graphLookup graph1 type).getD []
          let resourceID := match resource.id with
                            | none => generateUniqueID graph1 type
                            | some i =>
                                if lookupPart part i = none
                                then generateUniqueID graph1 type
                                else i
          let resource' := { resource with id := some resourceID }
          let graph2 := graphSet graph1 type (partSet part resourceID resource')
          let (g, d'') := persistGraph graph2 d'
          (.ok g, resource', ⟨some (.ok graph2)⟩, d'')

/-- `delete(resource)` (source lines 218-242).  Resolves with `undefined`
(`.ok none`) on the two no-op paths, and with the persisted graph otherwise. -/
def delete (readErr : Option String) (s : StoreState) (d : Disk) (resource : Resource) :
    Except StoreError (Option Graph) × StoreState × Disk :=
  match resource.type with
  | none => (.error .missingType, s, d)
  | some type =>
      match resource.id with
      | none => (.ok none, s, d)
      | some i =>
          match loadGraph readErr s d with
          | (.error e, s', d') => (.error e, s', d')
          | (.ok graph, s', d') =>
              match graphLookup graph type with
              | none => (.ok none, s', d')
              | some p =>
                  let graph2 := graphSet graph type (partDelete p i)
                  let (g, d'') := persistGraph graph2 d'
                  (.ok (some g), ⟨some (.ok graph2)⟩, d'')

/-! ## Temporal model of the load-once guarantee

`loadGraph` stores the *promise* of the single `loadDB` call in its
closed-over variable synchronously, before the `fs.readFile` callback runs, so
a call arriving while the read is still pending finds the variable non-null
and issues no read of its own.  The states mirror the spec's
`Unloaded → Loading → Loaded` machine: `call` is any `find`/`save`/`delete`
invoking `loadGraph`; `complete` is the settling of the pending read. -/

/-- The state of the memoised load: no promise yet, a pending promise, or a
settled promise. -/
inductive LoadState where
  | unloaded
  | loading
  | loaded
deriving DecidableEq, Repr

/-- An event of the process: an operation calls `loadGraph`, or the pending
disk read completes. -/
inductive LoadEvent where
  | call
  | complete
deriving DecidableEq, Repr

/-- One step of the memoisation state machine; the second component counts the
disk reads (`loadDB` invocations) the event causes. -/
def stepLoad : LoadState → LoadEvent → LoadState × Nat
  | .unloaded, .call => (.loading, 1)
  | .loading, .call => (.loading, 0)
  | .loaded, .call => (.loaded, 0)
  | .unloaded, .complete => (.unloaded, 0)
  | .loading, .complete => (.loaded, 0)
  | .loaded, .complete => (.loaded, 0)

/-- Run a trace of events, accumulating the number of disk reads issued. -/
def runLoad : LoadState → List LoadEvent → LoadState × Nat
  | s, [] => (s, 0)
  | s, e :: es =>
      let sn := stepLoad s e
      let rest := runLoad sn.1 es
      (rest.1, sn.2 + rest.2)

/-- The durability invariant: whenever the memoised load has settled with a
graph, the data file holds exactly (the serialisation of) that graph. -/
def FileMatches (s : StoreState) (d : Disk) : Prop :=
  ∀ g, s.cache = some (.ok g) → d.file = some g

/-! ## Sample data (used by the witness theorems) -/

/-- A sample persisted task with id 1. -/
def taskA : Resource := ⟨some "tasks", some 1, "A"⟩

/-- A sample persisted task with id 2. -/
def taskB : Resource := ⟨some "tasks", some 2, "B"⟩

/-- A sample graph holding the two tasks. -/
def sampleGraph : Graph := [("tasks", [(1, taskA), (2, taskB)])]

/-- A store whose load has settled with `sampleGraph`. -/
def sampleStore : StoreState := ⟨some (.ok sampleGraph)⟩

/-- A disk whose data file holds `sampleGraph`. -/
def sampleDisk : Disk := ⟨some sampleGraph, 0⟩

/-! ## Well-formedness of graphs

Partitions reachable through the store always have strictly ascending keys
(ids are handed out as `max + 1` and `Object.keys` enumerates ascending), and
every stored resource carries its own key in its `id` field (`save` writes
`resource.id = resourceID` before storing). -/

/-- The keys of a partition are strictly ascending (hence pairwise distinct). -/
def KeysSorted (p : TPartition) : Prop :=
  List.Pairwise (· < ·) (p.map (fun e => e.1))

/-- Every resource of a partition carries its key in its `id` field. -/
def IdsMatch (p : TPartition) : Prop :=
  ∀ e ∈ p, e.2.id = some e.1

/-- Every partition of the graph is well-formed. -/
def WFGraph (g : Graph) : Prop :=
  ∀ e ∈ g, KeysSorted e.2 ∧ IdsMatch e.2

instance : DecidablePred KeysSorted := fun q =>
  inferInstanceAs (Decidable (List.Pairwise _ (q.map _)))

instance : DecidablePred IdsMatch := fun p =>
  inferInstanceAs (Decidable (∀ e ∈ p, _))

instance : DecidablePred WFGraph := fun g =>
  inferInstanceAs (Decidable (∀ e ∈ g, _))

/-! ## Lemmas about the association-list primitives -/

theorem lookupPart_partSet_self (p : TPartition) (i : Nat) (r : Resource) :
    lookupPart (partSet p i r) i = some r := by
  induction p with
  | nil => simp [partSet, lookupPart]
  | cons e rest ih =>
      obtain ⟨j, s⟩ := e
      by_cases h : j = i
      · simp [partSet, h, lookupPart]
      · simp [partSet, h, lookupPart, ih]

theorem lookupPart_partSet_ne (p : TPartition) (i j : Nat) (r : Resource)
    (h : j ≠ i) : lookupPart (partSet p i r) j = lookupPart p j := by
  induction p with
  | nil => simp [partSet, lookupPart, Ne.symm h]
  | cons e rest ih =>
      obtain ⟨k, s⟩ := e
      by_cases hk : k = i
      · subst hk
        simp [partSet, lookupPart, Ne.symm h]
      · simp [partSet, hk, lookupPart, ih]

theorem graphLookup_graphSet_self (g : Graph) (t : String) (p : TPartition) :
    graphLookup (graphSet g t p) t = some p := by
  induction g with
  | nil => simp [graphSet, graphLookup]
  | cons e rest ih =>
      obtain ⟨u, q⟩ := e
      by_cases h : u = t
      · simp [graphSet, h, graphLookup]
      · simp [graphSet, h, graphLookup, ih]

theorem graphLookup_graphSet_ne (g : Graph) (t u : String) (p : TPartition)
    (h : u ≠ t) : graphLookup (graphSet g t p) u = graphLookup g u := by
  induction g with
  | nil => simp [graphSet, graphLookup, Ne.symm h]
  | cons e rest ih =>
      obtain ⟨v, q⟩ := e
      by_cases hv : v = t
      · subst hv
        simp [graphSet, graphLookup, Ne.symm h]
      · simp [graphSet, hv, graphLookup, ih]

theorem lookupPart_partDelete_self (p : TPartition) (i : Nat) :
    lookupPart (partDelete p i) i = none := by
  induction p with
  | nil => simp [partDelete, lookupPart]
  | cons e rest ih =>
      obtain ⟨j, s⟩ := e
      by_cases h : j = i
      · simpa [partDelete, h] using ih
      · simpa [partDelete, h, lookupPart] using ih

theorem lookupPart_partDelete_ne (p : TPartition) (i j : Nat) (h : j ≠ i) :
    lookupPart (partDelete p i) j = lookupPart p j := by
  induction p with
  | nil => simp [partDelete, lookupPart]
  | cons e rest ih =>
      obtain ⟨k, s⟩ := e
      by_cases hk : k = i
      · subst hk
        simp [partDelete, List.filter_cons, lookupPart, Ne.symm h] at ih ⊢
        exact ih
      · simp [partDelete, List.filter_cons, hk, lookupPart] at ih ⊢
        simp [ih]

/-! ## Lemmas about `sortKeys`, `objKeys`, `objValues` and `maxKey` -/

theorem mem_insertKey (i j : Nat) (l : List Nat) :
    j ∈ insertKey i l ↔ j = i ∨ j ∈ l := by
  induction l with
  | nil => simp [insertKey]
  | cons k rest ih =>
      by_cases h : i ≤ k
      · simp [insertKey, h]
      · simp [insertKey, h, ih]
        tauto

theorem mem_sortKeys (j : Nat) (l : List Nat) : j ∈ sortKeys l ↔ j ∈ l := by
  induction l with
  | nil => simp [sortKeys]
  | cons k rest ih => simp [sortKeys, mem_insertKey, ih]

/-- Insertion into an already `≤`-ascending list whose head is `≥ i` prepends. -/
theorem insertKey_of_le (i : Nat) (l : List Nat)
    (h : ∀ j ∈ l.head?, i ≤ j) : insertKey i l = i :: l := by
  cases l with
  | nil => simp [insertKey]
  | cons k rest => simp [insertKey, h k (by simp)]

/-- `sortKeys` fixes lists that are already `≤`-ascending. -/
theorem sortKeys_eq_self (l : List Nat) (h : List.Chain' (· ≤ ·) l) :
    sortKeys l = l := by
  induction l with
  | nil => simp [sortKeys]
  | cons k rest ih =>
      have hrest : List.Chain' (· ≤ ·) rest := h.tail
      have hhead : ∀ j ∈ rest.head?, k ≤ j := by
        intro j hj
        cases rest with
        | nil => simp at hj
        | cons m rest' =>
            simp at hj
            subst hj
            exact List.chain'_cons.mp h |>.1
      rw [sortKeys, ih hrest, insertKey_of_le k rest hhead]

/-- Under `KeysSorted`, `Object.keys` enumerates the partition's keys in their
stored (ascending) order. -/
theorem objKeys_eq_keys (p : TPartition) (h : KeysSorted p) :
    objKeys p = p.map (fun e => e.1) := by
  apply sortKeys_eq_self
  exact List.Pairwise.chain' (h.imp (fun hlt => Nat.le_of_lt hlt))

theorem foldl_max_le_init (l : List Nat) (a : Nat) : a ≤ l.foldl Nat.max a := by
  induction l generalizing a with
  | nil => simp
  | cons k rest ih =>
      calc a ≤ Nat.max a k := Nat.le_max_left a k
      _ ≤ rest.foldl Nat.max (Nat.max a k) := ih (Nat.max a k)

theorem le_foldl_max (l : List Nat) (a j : Nat) (h : j ∈ l) :
    j ≤ l.foldl Nat.max a := by
  induction l generalizing a with
  | nil => simp at h
  | cons k rest ih =>
      rcases List.mem_cons.mp h with rfl | hm
      · calc j ≤ Nat.max a j := Nat.le_max_right a j
        _ ≤ rest.foldl Nat.max (Nat.max a j) := foldl_max_le_init rest _
      · exact ih _ hm

theorem foldl_max_mem_or_init (l : List Nat) (a : Nat) :
    l.foldl Nat.max a = a ∨ l.foldl Nat.max a ∈ l := by
  induction l generalizing a with
  | nil => simp
  | cons k rest ih =>
      rcases ih (Nat.max a k) with h | h
      · rw [List.foldl_cons, h]
        rcases Nat.le_total a k with hle | hle
        · exact Or.inr (List.mem_cons.mpr (Or.inl (Nat.max_eq_right hle)))
        · exact Or.inl (Nat.max_eq_left hle)
      · refine Or.inr (List.mem_cons_of_mem _ ?_)
        rw [List.foldl_cons]
        exact h

/-- Every key of a partition is at most `maxKey` (`Math.max(0, ...keys)`). -/
theorem le_maxKey (p : TPartition) (i : Nat) (h : i ∈ p.map (fun e => e.1)) :
    i ≤ maxKey p := by
  apply le_foldl_max
  exact (mem_sortKeys i _).mpr h

/-- On a non-empty partition, `maxKey` is attained by one of the keys. -/
theorem maxKey_mem (p : TPartition) (h : p ≠ []) :
    maxKey p ∈ p.map (fun e => e.1) := by
  have hne : ∃ k, k ∈ p.map (fun e => e.1) := by
    cases p with
    | nil => exact absurd rfl h
    | cons e rest => exact ⟨e.1, by simp⟩
  obtain ⟨k, hk⟩ := hne
  rcases foldl_max_mem_or_init (objKeys p) 0 with h0 | hmem
  · have hk' : k ≤ maxKey p := le_maxKey p k hk
    have hmax0 : maxKey p = 0 := h0
    rw [show maxKey p = k by omega]
    exact hk
  · exact (mem_sortKeys _ _).mp hmem

/-- Under `KeysSorted`, a stored entry is found by `lookupPart` at its key. -/
theorem lookupPart_of_mem (p : TPartition) (i : Nat) (r : Resource)
    (hs : KeysSorted p) (h : (i, r) ∈ p) : lookupPart p i = some r := by
  induction p with
  | nil => simp at h
  | cons e rest ih =>
      obtain ⟨j, s⟩ := e
      rcases List.mem_cons.mp h with he | hm
      · injection he with h1 h2
        subst h1
        subst h2
        simp [lookupPart]
      · have hj : j ≠ i := by
          have : j < i :=
            (List.pairwise_cons.mp hs).1 i (List.mem_map.mpr ⟨(i, r), hm, rfl⟩)
          omega
        simp [lookupPart, hj]
        exact ih (List.pairwise_cons.mp hs).2 hm

/-- Under well-formedness, the array `find(type)` builds is exactly the
partition's resources in stored order. -/
theorem objValues_eq_map (p : TPartition) (hs : KeysSorted p) :
    objValues p = p.map (fun e => e.2) := by
  induction p with
  | nil => simp [objValues, objKeys, sortKeys]
  | cons e rest ih =>
      obtain ⟨i, r⟩ := e
      have hrest : KeysSorted rest := (List.pairwise_cons.mp hs).2
      have hkeys : objKeys ((i, r) :: rest) = i :: rest.map (fun e => e.1) :=
        objKeys_eq_keys _ hs
      rw [objValues, hkeys]
      rw [List.filterMap_cons]
      have hhit : lookupPart ((i, r) :: rest) i = some r := by simp [lookupPart]
      rw [hhit]
      have hcongr :
          (rest.map (fun e => e.1)).filterMap (fun j => lookupPart ((i, r) :: rest) j)
            = (rest.map (fun e => e.1)).filterMap (fun j => lookupPart rest j) := by
        apply List.filterMap_congr
        intro j hj
        have hij : i ≠ j := by
          have : i < j := (List.pairwise_cons.mp hs).1 j hj
          omega
        simp [lookupPart, hij]
      rw [hcongr]
      have : (rest.map (fun e => e.1)).filterMap (fun j => lookupPart rest j)
          = objValues rest := by
        rw [objValues, objKeys_eq_keys rest hrest]
      rw [this, ih hrest]
      simp

/-- Under well-formedness, the resources of a partition are pairwise distinct
(their `id` fields differ). -/
theorem values_nodup (p : TPartition) (hs : KeysSorted p) (hm : IdsMatch p) :
    (p.map (fun e => e.2)).Nodup := by
  induction p with
  | nil => simp
  | cons e rest ih =>
      obtain ⟨i, r⟩ := e
      have hrest : KeysSorted rest := (List.pairwise_cons.mp hs).2
      have hmrest : IdsMatch rest := fun e he => hm e (List.mem_cons_of_mem _ he)
      refine List.nodup_cons.mpr ⟨?_, ih hrest hmrest⟩
      intro hmem
      obtain ⟨⟨j, s⟩, hjs, hsr⟩ := List.mem_map.mp hmem
      have hsr' : s = r := hsr
      have hid_r : r.id = some i := hm (i, r) (List.mem_cons_self _ _)
      have hid_s : s.id = some j := hm (j, s) (List.mem_cons_of_mem _ hjs)
      have hij : i < j :=
        (List.pairwise_cons.mp hs).1 j (List.mem_map.mpr ⟨(j, s), hjs, rfl⟩)
      rw [hsr', hid_r] at hid_s
      simp at hid_s
      omega

/-! ## Lemmas about the operational layer -/

/-- A successful graph lookup exhibits a stored entry. -/
theorem graphLookup_mem (g : Graph) (t : String) (p : TPartition)
    (h : graphLookup g t = some p) : (t, p) ∈ g := by
  induction g with
  | nil => simp [graphLookup] at h
  | cons e rest ih =>
      obtain ⟨u, q⟩ := e
      by_cases hu : u = t
      · subst hu
        simp [graphLookup] at h
        subst h
        exact List.mem_cons_self _ _
      · simp [graphLookup, hu] at h
        exact List.mem_cons_of_mem _ (ih h)

/-- A memoised outcome is returned as-is, with no state change. -/
theorem loadGraph_cached (re : Option String) (s : StoreState) (d : Disk)
    (out : Except StoreError Graph) (h : s.cache = some out) :
    loadGraph re s d = (out, s, d) := by
  simp [loadGraph, h]

/-- Off the `unloaded` state the machine never issues a disk read. -/
theorem runLoad_no_reads (es : List LoadEvent) (s : LoadState)
    (h : s ≠ .unloaded) : (runLoad s es).2 = 0 := by
  induction es generalizing s with
  | nil => simp [runLoad]
  | cons e rest ih =>
      cases s with
      | unloaded => exact absurd rfl h
      | loading =>
          cases e <;> simp [runLoad, stepLoad] <;>
            exact ih _ (by intro hx; cases hx)
      | loaded =>
          cases e <;> simp [runLoad, stepLoad] <;>
            exact ih _ (by intro hx; cases hx)

/-- From `unloaded`, a trace issues exactly one disk read when it contains a
call and none otherwise. -/
theorem runLoad_reads (es : List LoadEvent) :
    (runLoad .unloaded es).2 = if LoadEvent.call ∈ es then 1 else 0 := by
  induction es with
  | nil => simp [runLoad]
  | cons e rest ih =>
      cases e with
      | call =>
          simp [runLoad, stepLoad, runLoad_no_reads rest .loading (by intro hx; cases hx)]
      | complete =>
          simp [runLoad, stepLoad, ih]

/-! ## Invariant preservation and operation-level helper lemmas -/

theorem loadDB_error_io (re : Option String) (d : Disk) (e : StoreError)
    (h : loadDB re d = .error e) : ∃ c, e = .io c := by
  cases re with
  | none =>
      cases hf : d.file <;> simp [loadDB, hf] at h
  | some code =>
      by_cases hc : code = "ENOENT" <;> simp [loadDB, hc] at h
      exact ⟨code, h.symm⟩

theorem loadGraph_settles (re : Option String) (s : StoreState) (d : Disk) :
    (loadGraph re s d).2.1.cache = some (loadGraph re s d).1 := by
  match hs : s.cache with
  | some out =>
      rw [loadGraph_cached re s d out hs]
      simpa using hs
  | none =>
      match hdb : loadDB re d with
      | .ok gd => simp [loadGraph, hs, hdb]
      | .error e => simp [loadGraph, hs, hdb]

theorem loadGraph_ok_file (re : Option String) (s : StoreState) (d : Disk)
    (g : Graph) (h : FileMatches s d)
    (hok : (loadGraph re s d).1 = .ok g) :
    (loadGraph re s d).2.1.cache = some (.ok g) ∧
    (loadGraph re s d).2.2.file = some g := by
  refine ⟨by rw [loadGraph_settles, hok], ?_⟩
  match hs : s.cache with
  | some out =>
      rw [loadGraph_cached re s d out hs] at hok ⊢
      simp at hok
      subst hok
      exact h g hs
  | none =>
      match hre : re with
      | some code =>
          by_cases hc : code = "ENOENT"
          · subst hc
            simp [loadGraph, hs, loadDB, persistGraph] at hok ⊢
            simp [← hok]
          · simp [loadGraph, hs, loadDB, hc] at hok
      | none =>
          match hf : d.file with
          | none =>
              simp [loadGraph, hs, loadDB, hf, persistGraph] at hok ⊢
              simp [← hok]
          | some g0 =>
              simp [loadGraph, hs, loadDB, hf] at hok ⊢
              simp [hok]

theorem loadGraph_fileMatches (re : Option String) (s : StoreState) (d : Disk)
    (h : FileMatches s d) :
    FileMatches (loadGraph re s d).2.1 (loadGraph re s d).2.2 := by
  intro g hg
  have hout : (loadGraph re s d).1 = .ok g := by
    have := loadGraph_settles re s d
    rw [hg] at this
    simp at this
    rw [this]
  exact (loadGraph_ok_file re s d g h hout).2

theorem save_success (re : Option String) (s : StoreState) (d : Disk)
    (r : Resource) (g' : Graph) (hok : (save re s d r).1 = .ok g') :
    (save re s d r).2.2.1.cache = some (.ok g') ∧
    (save re s d r).2.2.2.file = some g' := by
  match htype : r.type with
  | none => simp [save, htype] at hok
  | some t =>
      rcases hlg : loadGraph re s d with ⟨out, s1, d1⟩
      match out with
      | .error e => simp [save, htype, hlg] at hok
      | .ok g0 =>
          simp [save, htype, hlg, persistGraph] at hok ⊢
          simp [← hok]

theorem delete_success (re : Option String) (s : StoreState) (d : Disk)
    (r : Resource) (g' : Graph) (hok : (delete re s d r).1 = .ok (some g')) :
    (delete re s d r).2.1.cache = some (.ok g') ∧
    (delete re s d r).2.2.file = some g' := by
  match htype : r.type with
  | none => simp [delete, htype] at hok
  | some t =>
      match hid : r.id with
      | none => simp [delete, htype, hid] at hok
      | some i =>
          rcases hlg : loadGraph re s d with ⟨out, s1, d1⟩
          match out with
          | .error e => simp [delete, htype, hid, hlg] at hok
          | .ok g0 =>
              match hgt : graphLookup g0 t with
              | none => simp [delete, htype, hid, hlg, hgt] at hok
              | some p =>
                  simp [delete, htype, hid, hlg, hgt, persistGraph] at hok ⊢
                  simp [← hok]

theorem save_fileMatches (re : Option String) (s : StoreState) (d : Disk)
    (r : Resource) (h : FileMatches s d) :
    FileMatches (save re s d r).2.2.1 (save re s d r).2.2.2 := by
  match htype : r.type with
  | none => simpa [save, htype] using h
  | some t =>
      rcases hlg : loadGraph re s d with ⟨out, s1, d1⟩
      have hpres := loadGraph_fileMatches re s d h
      rw [hlg] at hpres
      match out with
      | .error e =>
          simp only [save, htype, hlg]
          exact hpres
      | .ok g0 =>
          simp only [save, htype, hlg, persistGraph]
          intro g hg
          simp at hg
          simp [← hg]

theorem delete_fileMatches (re : Option String) (s : StoreState) (d : Disk)
    (r : Resource) (h : FileMatches s d) :
    FileMatches (delete re s d r).2.1 (delete re s d r).2.2 := by
  match htype : r.type with
  | none => simpa [delete, htype] using h
  | some t =>
      match hid : r.id with
      | none => simpa [delete, htype, hid] using h
      | some i =>
          rcases hlg : loadGraph re s d with ⟨out, s1, d1⟩
          have hpres := loadGraph_fileMatches re s d h
          rw [hlg] at hpres
          match out with
          | .error e =>
              simp only [delete, htype, hid, hlg]
              exact hpres
          | .ok g0 =>
              match hgt : graphLookup g0 t with
              | none =>
                  simp only [delete, htype, hid, hlg, hgt]
                  exact hpres
              | some p =>
                  simp only [delete, htype, hid, hlg, hgt, persistGraph]
                  intro g hg
                  simp at hg
                  simp [← hg]

theorem mem_partSet (p : TPartition) (i : Nat) (r : Resource) (e : Nat × Resource)
    (h : e ∈ partSet p i r) : e = (i, r) ∨ e ∈ p := by
  induction p with
  | nil => simpa [partSet] using h
  | cons f rest ih =>
      obtain ⟨j, s⟩ := f
      by_cases hj : j = i
      · subst hj
        simp [partSet] at h
        rcases h with h | h
        · exact Or.inl (by simp [h])
        · exact Or.inr (List.mem_cons_of_mem _ h)
      · simp [partSet, hj] at h
        rcases h with h | h
        · exact Or.inr (by simp [h])
        · rcases ih h with h' | h'
          · exact Or.inl h'
          · exact Or.inr (List.mem_cons_of_mem _ h')

theorem mem_graphSet (g : Graph) (t : String) (p : TPartition) (e : String × TPartition)
    (h : e ∈ graphSet g t p) : e = (t, p) ∨ e ∈ g := by
  induction g with
  | nil => simpa [graphSet] using h
  | cons f rest ih =>
      obtain ⟨u, q⟩ := f
      by_cases hu : u = t
      · subst hu
        simp [graphSet] at h
        rcases h with h | h
        · exact Or.inl (by simp [h])
        · exact Or.inr (List.mem_cons_of_mem _ h)
      · simp [graphSet, hu] at h
        rcases h with h | h
        · exact Or.inr (by simp [h])
        · rcases ih h with h' | h'
          · exact Or.inl h'
          · exact Or.inr (List.mem_cons_of_mem _ h')

theorem partSet_append (p : TPartition) (i : Nat) (r : Resource)
    (h : lookupPart p i = none) : partSet p i r = p ++ [(i, r)] := by
  induction p with
  | nil => simp [partSet]
  | cons f rest ih =>
      obtain ⟨j, s⟩ := f
      by_cases hj : j = i
      · simp [lookupPart, hj] at h
      · simp [lookupPart, hj] at h
        simp [partSet, hj, ih h]

theorem keys_partSet_existing (p : TPartition) (i : Nat) (r : Resource)
    (h : lookupPart p i ≠ none) :
    (partSet p i r).map (fun e => e.1) = p.map (fun e => e.1) := by
  induction p with
  | nil => simp [lookupPart] at h
  | cons f rest ih =>
      obtain ⟨j, s⟩ := f
      by_cases hj : j = i
      · subst hj
        simp [partSet]
      · simp [lookupPart, hj] at h
        simp [partSet, hj, ih h]

theorem mem_keys_of_lookupPart (p : TPartition) (i : Nat) (r : Resource)
    (h : lookupPart p i = some r) : i ∈ p.map (fun e => e.1) := by
  induction p with
  | nil => simp [lookupPart] at h
  | cons f rest ih =>
      obtain ⟨j, s⟩ := f
      by_cases hj : j = i
      · simp [hj]
      · simp [lookupPart, hj] at h
        simp [ih h]

theorem lookupPart_gt_maxKey (p : TPartition) :
    lookupPart p (maxKey p + 1) = none := by
  cases hl : lookupPart p (maxKey p + 1) with
  | none => rfl
  | some r =>
      have := le_maxKey p _ (mem_keys_of_lookupPart p _ r hl)
      omega

theorem KeysSorted_append_max (p : TPartition) (r : Resource) (hs : KeysSorted p) :
    KeysSorted (p ++ [(maxKey p + 1, r)]) := by
  rw [KeysSorted, List.map_append]
  rw [List.pairwise_append]
  refine ⟨hs, by simp, ?_⟩
  intro a ha b hb
  simp at hb
  subst hb
  have := le_maxKey p a ha
  omega

theorem IdsMatch_partSet (p : TPartition) (i : Nat) (r : Resource)
    (hm : IdsMatch p) (hr : r.id = some i) : IdsMatch (partSet p i r) := by
  intro e he
  rcases mem_partSet p i r e he with h | h
  · subst h
    exact hr
  · exact hm e h

theorem KeysSorted_partSet_existing (p : TPartition) (i : Nat) (r : Resource)
    (hs : KeysSorted p) (h : lookupPart p i ≠ none) :
    KeysSorted (partSet p i r) := by
  rw [KeysSorted, keys_partSet_existing p i r h]
  exact hs

theorem KeysSorted_partDelete (p : TPartition) (i : Nat) (hs : KeysSorted p) :
    KeysSorted (partDelete p i) := by
  have hsub : (partDelete p i).map (fun e => e.1) |>.Sublist (p.map (fun e => e.1)) :=
    List.Sublist.map _ (List.filter_sublist p)
  exact List.Pairwise.sublist hsub hs

theorem IdsMatch_partDelete (p : TPartition) (i : Nat) (hm : IdsMatch p) :
    IdsMatch (partDelete p i) := by
  intro e he
  exact hm e (List.mem_of_mem_filter he)

theorem WFGraph_graphSet (g : Graph) (t : String) (p : TPartition)
    (hwf : WFGraph g) (hs : KeysSorted p) (hm : IdsMatch p) :
    WFGraph (graphSet g t p) := by
  intro e he
  rcases mem_graphSet g t p e he with h | h
  · subst h
    exact ⟨hs, hm⟩
  · exact hwf e h

theorem WFGraph_nil : WFGraph [] := by
  intro e he
  simp at he

theorem save_preserves_wf (re : Option String) (s : StoreState) (d : Disk)
    (r : Resource) (g g' : Graph) (hs : s.cache = some (.ok g))
    (hwf : WFGraph g) (hok : (save re s d r).1 = .ok g') : WFGraph g' := by
  match htype : r.type with
  | none => simp [save, htype] at hok
  | some t =>
      match hgt : graphLookup g t with
      | none =>
          have hwf1 : WFGraph (graphSet g t []) :=
            WFGraph_graphSet g t [] hwf (by simp [KeysSorted]) (by intro e he; simp at he)
          have hwf2 : ∀ pl ty, WFGraph (graphSet (graphSet g t []) t
              [(1, { type := ty, id := some 1, payload := pl })]) := by
            intro pl ty
            apply WFGraph_graphSet _ t _ hwf1 (by simp [KeysSorted])
            intro e he
            simp at he
            simp [he]
          cases hid : r.id with
          | none =>
              simp [save, htype, loadGraph_cached re s d _ hs, hgt, hid,
                    graphLookup_graphSet_self, generateUniqueID, maxKey, objKeys,
                    sortKeys, partSet, persistGraph] at hok
              rw [← hok]
              exact htype ▸ hwf2 r.payload r.type
          | some i =>
              simp [save, htype, loadGraph_cached re s d _ hs, hgt, hid,
                    graphLookup_graphSet_self, generateUniqueID, maxKey, objKeys,
                    sortKeys, partSet, lookupPart, persistGraph] at hok
              rw [← hok]
              exact htype ▸ hwf2 r.payload r.type
      | some p =>
          obtain ⟨hsort, hids⟩ := hwf (t, p) (graphLookup_mem g t p hgt)
          have hfreshwf : WFGraph (graphSet g t (partSet p (maxKey p + 1)
              { r with id := some (maxKey p + 1) })) := by
            apply WFGraph_graphSet g t _ hwf
            · rw [partSet_append p _ _ (lookupPart_gt_maxKey p)]
              exact KeysSorted_append_max p _ hsort
            · exact IdsMatch_partSet p _ _ hids (by simp)
          cases hid : r.id with
          | none =>
              simp [save, htype, loadGraph_cached re s d _ hs, hgt, hid,
                    generateUniqueID, persistGraph] at hok
              rw [← hok]
              exact htype ▸ hfreshwf
          | some i =>
              cases hit : lookupPart p i with
              | none =>
                  simp [save, htype, loadGraph_cached re s d _ hs, hgt, hid, hit,
                        generateUniqueID, persistGraph] at hok
                  rw [← hok]
                  exact htype ▸ hfreshwf
              | some r0 =>
                  simp [save, htype, loadGraph_cached re s d _ hs, hgt, hid, hit,
                        persistGraph] at hok
                  rw [← hok]
                  apply WFGraph_graphSet g t _ hwf
                  · exact KeysSorted_partSet_existing p i _ hsort (by simp [hit])
                  · exact IdsMatch_partSet p i _ hids (by simp)

theorem delete_preserves_wf (re : Option String) (s : StoreState) (d : Disk)
    (r : Resource) (g g' : Graph) (hs : s.cache = some (.ok g))
    (hwf : WFGraph g) (hok : (delete re s d r).1 = .ok (some g')) : WFGraph g' := by
  match htype : r.type with
  | none => simp [delete, htype] at hok
  | some t =>
      match hid : r.id with
      | none => simp [delete, htype, hid] at hok
      | some i =>
          match hgt : graphLookup g t with
          | none => simp [delete, htype, hid, loadGraph_cached re s d _ hs, hgt] at hok
          | some p =>
              obtain ⟨hsort, hids⟩ := hwf (t, p) (graphLookup_mem g t p hgt)
              simp [delete, htype, hid, loadGraph_cached re s d _ hs, hgt,
                    persistGraph] at hok
              rw [← hok]
              exact WFGraph_graphSet g t _ hwf (KeysSorted_partDelete p i hsort)
                (IdsMatch_partDelete p i hids)

/-! ## The claims -/

/-- **C1** (claimed): saving the very first resource of a fresh type (no
partition in the graph yet) with no id assigns it id 0.  **What the code
does**: `save` executes `graph[resource.type] = {}` *before* calling
`generateUniqueID`, so by the time `generateUniqueID` looks the type up the
partition exists (empty) and its partition-absent branch (`return 0`) is
unreachable; the id computed is `Math.max(0) + 1 = 1`.  This theorem
evaluates the store at the failing input — a fresh store with an absent data
file, saving the first `tasks` resource with no id — and shows the assigned
id is 1 (second conjunct: the whole resulting graph, with the resource at
key 1), while `generateUniqueID` applied to a graph genuinely lacking the
partition would return 0 (third conjunct), exhibiting the intent the ordering
defeats. -/
theorem c1_first_fresh_save_assigns_id_one :
    (save none ⟨none⟩ ⟨none, 0⟩ ⟨some "tasks", none, "A"⟩).2.1.id = some 1 ∧
    (save none ⟨none⟩ ⟨none, 0⟩ ⟨some "tasks", none, "A"⟩).1
      = .ok [("tasks", [(1, ⟨some "tasks", some 1, "A"⟩)])] ∧
    generateUniqueID [] "tasks" = 0 :=
  ⟨rfl, rfl, rfl⟩

/-- **C2**: when `save` must assign a fresh id (the resource has no id, or its
id is not a key of its type's partition) and the partition is non-empty, the
assigned id is the maximum id in the partition plus one — so ids below the
current maximum are never reassigned, even after deletions.  `maxKey p` is
shown to be the genuine maximum: every key is `≤ maxKey p` and it is attained. -/
theorem c2_fresh_id_is_max_plus_one (re : Option String) (s : StoreState)
    (d : Disk) (g : Graph) (r : Resource) (t : String) (p : TPartition)
    (hs : s.cache = some (.ok g)) (ht : r.type = some t)
    (hp : graphLookup g t = some p) (hne : p ≠ [])
    (hfresh : ∀ i, r.id = some i → lookupPart p i = none) :
    (save re s d r).2.1.id = some (maxKey p + 1) ∧
    (∀ j ∈ p.map (fun e => e.1), j ≤ maxKey p) ∧
    maxKey p ∈ p.map (fun e => e.1) := by
  refine ⟨?_, fun j hj => le_maxKey p j hj, maxKey_mem p hne⟩
  cases hid : r.id with
  | none => simp [save, ht, loadGraph_cached re s d _ hs, hp, hid, generateUniqueID]
  | some i =>
      simp [save, ht, loadGraph_cached re s d _ hs, hp, hid, hfresh i hid,
            generateUniqueID]

/-- Witness for `c2_fresh_id_is_max_plus_one`: saving a third task into the
sample store (ids 1 and 2 present) assigns id `maxKey + 1 = 3`. -/
theorem c2_fresh_id_is_max_plus_one_witness :
    (save none sampleStore sampleDisk ⟨some "tasks", none, "C"⟩).2.1.id
      = some (maxKey [(1, taskA), (2, taskB)] + 1) ∧
    (∀ j ∈ [(1, taskA), (2, taskB)].map (fun e => e.1),
      j ≤ maxKey [(1, taskA), (2, taskB)]) ∧
    maxKey [(1, taskA), (2, taskB)] ∈ [(1, taskA), (2, taskB)].map (fun e => e.1) :=
  c2_fresh_id_is_max_plus_one none sampleStore sampleDisk sampleGraph
    ⟨some "tasks", none, "C"⟩ "tasks" [(1, taskA), (2, taskB)]
    rfl rfl (by decide) (by decide) (fun i h => Option.noConfusion h)

/-- **C3**: saving a resource whose id already exists as a key of its type's
partition keeps that id and overwrites exactly that entry: the resulting
state is pinned completely (result graph, untouched input resource whose `id`
field equals the resolved id, settled cache, one file write), the overwritten
key holds the new resource, every other key of the partition is unchanged,
and every other partition of the graph is unchanged. -/
theorem c3_save_existing_id_updates_in_place (re : Option String)
    (s : StoreState) (d : Disk) (g : Graph) (r : Resource) (t : String)
    (p : TPartition) (i : Nat)
    (hs : s.cache = some (.ok g)) (ht : r.type = some t)
    (hp : graphLookup g t = some p) (hid : r.id = some i)
    (hmem : lookupPart p i ≠ none) :
    save re s d r =
      (.ok (graphSet g t (partSet p i r)), r,
       ⟨some (.ok (graphSet g t (partSet p i r)))⟩,
       ⟨some (graphSet g t (partSet p i r)), d.writes + 1⟩) ∧
    lookupPart (partSet p i r) i = some r ∧
    (∀ j, j ≠ i → lookupPart (partSet p i r) j = lookupPart p j) ∧
    (∀ u, u ≠ t → graphLookup (graphSet g t (partSet p i r)) u = graphLookup g u) ∧
    graphLookup (graphSet g t (partSet p i r)) t = some (partSet p i r) := by
  obtain ⟨ty, id0, pl⟩ := r
  simp only at ht hid
  subst ht
  subst hid
  refine ⟨?_, lookupPart_partSet_self p i _,
    fun j hj => lookupPart_partSet_ne p i j _ hj,
    fun u hu => graphLookup_graphSet_ne g t u _ hu,
    graphLookup_graphSet_self g t _⟩
  simp [save, loadGraph_cached re s d _ hs, hp, hmem, persistGraph]

/-- Witness for `c3_save_existing_id_updates_in_place`: overwriting the
sample task with id 1. -/
theorem c3_save_existing_id_updates_in_place_witness :
    save none sampleStore sampleDisk ⟨some "tasks", some 1, "A2"⟩ =
      (.ok (graphSet sampleGraph "tasks"
        (partSet [(1, taskA), (2, taskB)] 1 ⟨some "tasks", some 1, "A2"⟩)),
       ⟨some "tasks", some 1, "A2"⟩,
       ⟨some (.ok (graphSet sampleGraph "tasks"
         (partSet [(1, taskA), (2, taskB)] 1 ⟨some "tasks", some 1, "A2"⟩)))⟩,
       ⟨some (graphSet sampleGraph "tasks"
         (partSet [(1, taskA), (2, taskB)] 1 ⟨some "tasks", some 1, "A2"⟩)),
        sampleDisk.writes + 1⟩) ∧
    lookupPart (partSet [(1, taskA), (2, taskB)] 1 ⟨some "tasks", some 1, "A2"⟩) 1
      = some ⟨some "tasks", some 1, "A2"⟩ ∧
    (∀ j, j ≠ 1 →
      lookupPart (partSet [(1, taskA), (2, taskB)] 1 ⟨some "tasks", some 1, "A2"⟩) j
        = lookupPart [(1, taskA), (2, taskB)] j) ∧
    (∀ u, u ≠ "tasks" →
      graphLookup (graphSet sampleGraph "tasks"
        (partSet [(1, taskA), (2, taskB)] 1 ⟨some "tasks", some 1, "A2"⟩)) u
        = graphLookup sampleGraph u) ∧
    graphLookup (graphSet sampleGraph "tasks"
      (partSet [(1, taskA), (2, taskB)] 1 ⟨some "tasks", some 1, "A2"⟩)) "tasks"
      = some (partSet [(1, taskA), (2, taskB)] 1 ⟨some "tasks", some 1, "A2"⟩) :=
  c3_save_existing_id_updates_in_place none sampleStore sampleDisk sampleGraph
    ⟨some "tasks", some 1, "A2"⟩ "tasks" [(1, taskA), (2, taskB)] 1
    rfl rfl (by decide) rfl (by decide)

/-- **C4**: the store reads the data file at most once per process lifetime.
First conjunct: over any trace of operation calls and read completions
starting unloaded, exactly one disk read is issued when some operation runs
and none otherwise — in particular a call arriving while the first read is
still pending (state `loading`) issues no second read, because `loadGraph`
stores the pending promise synchronously.  Second conjunct: once the outcome
is memoised, every later `loadGraph` returns exactly the cached outcome with
no state or disk change. -/
theorem c4_load_once (es : List LoadEvent) (re : Option String)
    (s : StoreState) (d : Disk) (out : Except StoreError Graph)
    (h : s.cache = some out) :
    (runLoad .unloaded es).2 = (if LoadEvent.call ∈ es then 1 else 0) ∧
    loadGraph re s d = (out, s, d) :=
  ⟨runLoad_reads es, loadGraph_cached re s d out h⟩

/-- Witness for `c4_load_once`: a trace with two calls (the second while the
read is pending) and a completion issues exactly one read. -/
theorem c4_load_once_witness :
    (runLoad .unloaded [LoadEvent.call, LoadEvent.call, LoadEvent.complete]).2
      = (if LoadEvent.call ∈ [LoadEvent.call, LoadEvent.call, LoadEvent.complete]
         then 1 else 0) ∧
    loadGraph none sampleStore sampleDisk = (.ok sampleGraph, sampleStore, sampleDisk) :=
  c4_load_once [LoadEvent.call, LoadEvent.call, LoadEvent.complete] none
    sampleStore sampleDisk (.ok sampleGraph) rfl

/-- **C5**: on the initial load, a file-not-found read is not an error: the
store writes the empty graph to the file and resolves with it (first
conjunct: file genuinely absent; second conjunct: an injected `ENOENT`), and
any read error with a different code rejects the load with that error
unchanged (third conjunct). -/
theorem c5_initial_load_error_handling (d : Disk) (w : Nat) (code : String)
    (hc : code ≠ "ENOENT") :
    loadDB none ⟨none, w⟩ = .ok ([], ⟨some [], w + 1⟩) ∧
    loadDB (some "ENOENT") d = .ok ([], ⟨some [], d.writes + 1⟩) ∧
    loadDB (some code) d = .error (.io code) := by
  refine ⟨?_, ?_, ?_⟩ <;> simp [loadDB, persistGraph, hc]

/-- Witness for `c5_initial_load_error_handling` with an `EACCES` read error. -/
theorem c5_initial_load_error_handling_witness :
    loadDB none ⟨none, 5⟩ = .ok ([], ⟨some [], 5 + 1⟩) ∧
    loadDB (some "ENOENT") (⟨some sampleGraph, 7⟩ : Disk)
      = .ok ([], ⟨some [], (⟨some sampleGraph, 7⟩ : Disk).writes + 1⟩) ∧
    loadDB (some "EACCES") (⟨some sampleGraph, 7⟩ : Disk) = .error (.io "EACCES") :=
  c5_initial_load_error_handling ⟨some sampleGraph, 7⟩ 5 "EACCES" (by decide)

/-- **C6**: once the graph is loaded, `find` rejects with the
unrecognized-type error exactly when the requested type has no partition
(first two conjuncts, with and without an id), and when the type exists but
the given id matches no resource, `find` resolves with the absent value and
no error, changing nothing (third conjunct). -/
theorem c6_find_unrecognized_type_iff (re : Option String) (s : StoreState)
    (d : Disk) (g : Graph) (t : String) (i : Nat) (p : TPartition)
    (hs : s.cache = some (.ok g)) :
    ((find re s d t none).1 = .error .unrecognizedType ↔ graphLookup g t = none) ∧
    ((find re s d t (some i)).1 = .error .unrecognizedType ↔ graphLookup g t = none) ∧
    (graphLookup g t = some p → lookupPart p i = none →
      find re s d t (some i) = (.ok (.one none), s, d)) := by
  refine ⟨?_, ?_, ?_⟩
  · simp [find, loadGraph_cached re s d _ hs]
    cases hgt : graphLookup g t <;> simp [hgt]
  · simp [find, loadGraph_cached re s d _ hs]
    cases hgt : graphLookup g t <;> simp [hgt]
  · intro hp hi
    simp [find, loadGraph_cached re s d _ hs, hp, hi]

/-- Witness for `c6_find_unrecognized_type_iff`: the sample store, looking up
the existing type `tasks` and the absent id 7. -/
theorem c6_find_unrecognized_type_iff_witness :
    ((find none sampleStore sampleDisk "tasks" none).1 = .error .unrecognizedType
      ↔ graphLookup sampleGraph "tasks" = none) ∧
    ((find none sampleStore sampleDisk "tasks" (some 7)).1 = .error .unrecognizedType
      ↔ graphLookup sampleGraph "tasks" = none) ∧
    (graphLookup sampleGraph "tasks" = some [(1, taskA), (2, taskB)] →
      lookupPart [(1, taskA), (2, taskB)] 7 = none →
      find none sampleStore sampleDisk "tasks" (some 7)
        = (.ok (.one none), sampleStore, sampleDisk)) :=
  c6_find_unrecognized_type_iff none sampleStore sampleDisk sampleGraph
    "tasks" 7 [(1, taskA), (2, taskB)] rfl

/-- **C7**: for a loaded, well-formed graph with a partition for `t`,
`find(t)` with no id resolves with exactly that partition's resources in
stored (insertion) order, the list has no duplicates, and each listed
resource is individually retrievable via `find(t, id)`. -/
theorem c7_find_returns_all_resources (re : Option String) (s : StoreState)
    (d : Disk) (g : Graph) (t : String) (p : TPartition)
    (hs : s.cache = some (.ok g)) (hwf : WFGraph g)
    (hp : graphLookup g t = some p) :
    find re s d t none = (.ok (.many (p.map (fun e => e.2))), s, d) ∧
    (p.map (fun e => e.2)).Nodup ∧
    (∀ i r, (i, r) ∈ p → find re s d t (some i) = (.ok (.one (some r)), s, d)) := by
  obtain ⟨hsort, hids⟩ := hwf (t, p) (graphLookup_mem g t p hp)
  refine ⟨?_, values_nodup p hsort hids, ?_⟩
  · simp [find, loadGraph_cached re s d _ hs, hp, objValues_eq_map p hsort]
  · intro i r hmem
    simp [find, loadGraph_cached re s d _ hs, hp, lookupPart_of_mem p i r hsort hmem]

/-- Witness for `c7_find_returns_all_resources` on the sample store. -/
theorem c7_find_returns_all_resources_witness :
    find none sampleStore sampleDisk "tasks" none
      = (.ok (.many ([(1, taskA), (2, taskB)].map (fun e => e.2))),
         sampleStore, sampleDisk) ∧
    ([(1, taskA), (2, taskB)].map (fun e => e.2)).Nodup ∧
    (∀ i r, (i, r) ∈ [(1, taskA), (2, taskB)] →
      find none sampleStore sampleDisk "tasks" (some i)
        = (.ok (.one (some r)), sampleStore, sampleDisk)) :=
  c7_find_returns_all_resources none sampleStore sampleDisk sampleGraph
    "tasks" [(1, taskA), (2, taskB)] rfl (by decide) (by decide)

/-- **C8**: `save` and `delete` reject with the missing-type error exactly
when the resource has no `type` field.  When the type is absent the check
happens before any load, so nothing changes at all: the returned module state
and disk (file and write counter) are the inputs.  When a type is present the
result is never the missing-type error (the cache hypothesis says the store
state is reachable: a cached rejection can only be an `io` error, as
`loadDB` produces no other kind). -/
theorem c8_missing_type_rejection (re : Option String) (s : StoreState)
    (d : Disk) (r : Resource) (t : String)
    (hcache : ∀ e, s.cache = some (.error e) → ∃ c, e = .io c) :
    (r.type = none →
      save re s d r = (.error .missingType, r, s, d) ∧
      delete re s d r = (.error .missingType, s, d)) ∧
    (r.type = some t →
      (save re s d r).1 ≠ .error .missingType ∧
      (delete re s d r).1 ≠ .error .missingType) := by
  constructor
  · intro h
    constructor <;> simp [save, delete, h]
  · intro ht
    have hload : (loadGraph re s d).1 ≠ .error .missingType := by
      match hs : s.cache with
      | some (.ok g) => simp [loadGraph, hs]
      | some (.error e) =>
          obtain ⟨c, rfl⟩ := hcache e hs
          simp [loadGraph, hs]
      | none =>
          match hdb : loadDB re d with
          | .ok gd => simp [loadGraph, hs, hdb]
          | .error e =>
              obtain ⟨c, rfl⟩ := loadDB_error_io re d e hdb
              simp [loadGraph, hs, hdb]
    rcases hlg : loadGraph re s d with ⟨out, s1, d1⟩
    rw [hlg] at hload
    constructor
    · cases out with
      | error e =>
          simp only at hload
          simp [save, ht, hlg]
          intro hx
          exact hload (by rw [hx])
      | ok g => simp [save, ht, hlg]
    · cases out with
      | error e =>
          cases hid : r.id with
          | none => simp [delete, ht, hid]
          | some i =>
              simp only at hload
              simp [delete, ht, hid, hlg]
              intro hx
              exact hload (by rw [hx])
      | ok g =>
          cases hid : r.id with
          | none => simp [delete, ht, hid]
          | some i =>
              simp [delete, ht, hid, hlg]
              cases hgt : graphLookup g t <;> simp [hgt]

/-- Witness for `c8_missing_type_rejection`: a typeless resource is rejected
with no state change; a typed resource is not rejected with that error. -/
theorem c8_missing_type_rejection_witness :
    save none sampleStore sampleDisk ⟨none, none, "X"⟩
      = (.error .missingType, ⟨none, none, "X"⟩, sampleStore, sampleDisk) ∧
    (save none sampleStore sampleDisk ⟨some "tasks", none, "X"⟩).1
      ≠ .error .missingType :=
  ⟨((c8_missing_type_rejection none sampleStore sampleDisk ⟨none, none, "X"⟩
      "tasks" (fun e h => by simp [sampleStore] at h)).1 rfl).1,
   ((c8_missing_type_rejection none sampleStore sampleDisk
      ⟨some "tasks", none, "X"⟩ "tasks"
      (fun e h => by simp [sampleStore] at h)).2 rfl).1⟩

/-- **C9**: on a loaded store, `delete` of a resource that has a type but no
id, or whose type has no partition, is a no-op: it resolves with no value
(`undefined`), the module state (hence the in-memory graph) is unchanged and
the disk (file and write counter) is unchanged. -/
theorem c9_delete_noop (re : Option String) (s : StoreState) (d : Disk)
    (g : Graph) (r : Resource) (t : String)
    (hs : s.cache = some (.ok g)) (ht : r.type = some t) :
    (r.id = none → delete re s d r = (.ok none, s, d)) ∧
    (∀ i, r.id = some i → graphLookup g t = none →
      delete re s d r = (.ok none, s, d)) := by
  constructor
  · intro h
    simp [delete, ht, h]
  · intro i h hgt
    simp [delete, ht, h, loadGraph_cached re s d _ hs, hgt]

/-- Witness for `c9_delete_noop`: deleting an id-less `tasks` resource and a
resource of the partition-less type `nope` both leave the sample store and
disk untouched. -/
theorem c9_delete_noop_witness :
    delete none sampleStore sampleDisk ⟨some "tasks", none, "X"⟩
      = (.ok none, sampleStore, sampleDisk) ∧
    delete none sampleStore sampleDisk ⟨some "nope", some 1, "X"⟩
      = (.ok none, sampleStore, sampleDisk) :=
  ⟨(c9_delete_noop none sampleStore sampleDisk sampleGraph
      ⟨some "tasks", none, "X"⟩ "tasks" rfl rfl).1 rfl,
   (c9_delete_noop none sampleStore sampleDisk sampleGraph
      ⟨some "nope", some 1, "X"⟩ "nope" rfl rfl).2 1 rfl (by decide)⟩

/-- **C10**: assuming the durability invariant (file = serialised cached
graph) before the call, every successful `save` and every persisting
`delete` leaves the file holding exactly the serialisation of the new
in-memory graph, and a fresh load (a new process reading that file) yields
the identical graph; moreover the invariant itself is preserved by `save`
and `delete` on all paths (including their no-op and failure paths). -/
theorem c10_persist_reload_identity (re : Option String) (s : StoreState)
    (d : Disk) (r : Resource) (h : FileMatches s d) :
    (∀ g', (save re s d r).1 = .ok g' →
        (save re s d r).2.2.1.cache = some (.ok g') ∧
        (save re s d r).2.2.2.file = some g' ∧
        loadDB none ⟨some g', 0⟩ = .ok (g', ⟨some g', 0⟩)) ∧
    (∀ g', (delete re s d r).1 = .ok (some g') →
        (delete re s d r).2.1.cache = some (.ok g') ∧
        (delete re s d r).2.2.file = some g' ∧
        loadDB none ⟨some g', 0⟩ = .ok (g', ⟨some g', 0⟩)) ∧
    FileMatches (save re s d r).2.2.1 (save re s d r).2.2.2 ∧
    FileMatches (delete re s d r).2.1 (delete re s d r).2.2 := by
  refine ⟨?_, ?_, save_fileMatches re s d r h, delete_fileMatches re s d r h⟩
  · intro g' hok
    obtain ⟨h1, h2⟩ := save_success re s d r g' hok
    exact ⟨h1, h2, by simp [loadDB]⟩
  · intro g' hok
    obtain ⟨h1, h2⟩ := delete_success re s d r g' hok
    exact ⟨h1, h2, by simp [loadDB]⟩

/-- Witness for `c10_persist_reload_identity`: re-saving the sample task over
the sample store. -/
theorem c10_persist_reload_identity_witness :
    (∀ g', (save none sampleStore sampleDisk taskA).1 = .ok g' →
        (save none sampleStore sampleDisk taskA).2.2.1.cache = some (.ok g') ∧
        (save none sampleStore sampleDisk taskA).2.2.2.file = some g' ∧
        loadDB none ⟨some g', 0⟩ = .ok (g', ⟨some g', 0⟩)) ∧
    (∀ g', (delete none sampleStore sampleDisk taskA).1 = .ok (some g') →
        (delete none sampleStore sampleDisk taskA).2.1.cache = some (.ok g') ∧
        (delete none sampleStore sampleDisk taskA).2.2.file = some g' ∧
        loadDB none ⟨some g', 0⟩ = .ok (g', ⟨some g', 0⟩)) ∧
    FileMatches (save none sampleStore sampleDisk taskA).2.2.1
      (save none sampleStore sampleDisk taskA).2.2.2 ∧
    FileMatches (delete none sampleStore sampleDisk taskA).2.1
      (delete none sampleStore sampleDisk taskA).2.2 :=
  c10_persist_reload_identity none sampleStore sampleDisk taskA
    (by intro g hg; simp [sampleStore] at hg; subst hg; simp [sampleDisk])

end TimeTracker
